import Mathlib

/-!
Shallow embedding of the usage-tracking / limit-enforcement cycle of
`src/utils/check_usage.py` (repository Lapa-IpLimit).

Python dicts are modelled as insertion-ordered association lists
(`List (String × α)`): lookup finds the first (and, for a well-formed
dict, only) binding; update replaces in place; new keys are appended.
The module-level mutable state (`ACTIVE_USERS`, `IP_STREAKS`) becomes
explicit state threaded through the cycle function, and the awaited
side effects (`send_logs`, `logger.warning`, `disable_user`, `print`)
become an explicit event trace in the cycle's result.  A failure of the
external `disable_user` action (a `ValueError` in Python) is modelled
by a boolean oracle `fails : String → Bool` saying for which users the
call raises.
-/

namespace LapaIpLimit

/-- Lookup in a Python-dict model: first binding for the key, if any. -/
def dictGet {α : Type} (d : List (String × α)) (k : String) : Option α :=
  match d with
  | [] => none
  | (k', v) :: rest => if k' == k then some v else dictGet rest k

/-- Update in a Python-dict model: replace the binding in place if the key
exists, otherwise append the new binding (Python dicts keep insertion
order, and `d[k] = v` on a fresh key appends). -/
def dictSet {α : Type} (d : List (String × α)) (k : String) (v : α) :
    List (String × α) :=
  match d with
  | [] => [(k, v)]
  | (k', v') :: rest =>
      if k' == k then (k', v) :: rest else (k', v') :: dictSet rest k v

/-- Keys of a dict model. -/
def dictKeys {α : Type} (d : List (String × α)) : List String :=
  d.map Prod.fst

/-- The per-user streak dict `IP_STREAKS[user] : dict[str, int]`. -/
abbrev IpMap := List (String × Nat)

/-- The global streak table `IP_STREAKS : dict[str, dict[str, int]]`. -/
abbrev StreakTable := List (String × IpMap)

/-- The session snapshot `ACTIVE_USERS`: user name to the raw list of IP
strings observed for that user (`UserType.ip`), duplicates possible. -/
abbrev Snapshot := List (String × List String)

/-- Embeds `_ru_plurals_logs` from `check_usage.py`: Russian plural form of
the word for "log" (`n_abs = abs(n)`; `11 <= n_abs % 100 <= 14` gives the
plural-genitive, else last digit 1 the singular, last digit 2..4 the
plural, otherwise the plural-genitive). -/
def _ru_plurals_logs (n : Int) : String :=
  let n_abs := n.natAbs
  if 11 ≤ n_abs % 100 ∧ n_abs % 100 ≤ 14 then
    "логов"
  else
    let last := n_abs % 10
    if last = 1 then "лог"
    else if 2 ≤ last ∧ last ≤ 4 then "лога"
    else "логов"

/-- Embeds `list(dict.fromkeys(data.ip))` from `check_ip_used`:
de-duplication keeping the first occurrence of each value, preserving
first-occurrence order (each kept head erases its later duplicates). -/
def dedupFirst (l : List String) : List String :=
  match l with
  | [] => []
  | x :: xs => x :: dedupFirst (xs.filter (fun y => y ≠ x))
termination_by l.length
decreasing_by
  simp only [List.length_cons]
  exact Nat.lt_succ_of_le (List.length_filter_le _ _)

/-- Embeds `check_ip_used`: for every user of the session snapshot, collapse
the raw IP occurrence list to its distinct values in first-occurrence
order (the logging side effects carry no state and are omitted). -/
def check_ip_used (active_users : Snapshot) : List (String × List String) :=
  active_users.map (fun p => (p.1, dedupFirst p.2))

/-- Body of the per-user part of `_update_ip_streaks`: increment the streak
of every currently active IP (initializing to 1 via `.get(ip, 0) + 1`),
then delete every stale IP (recorded but not currently active). -/
def updateUserStreaks (m : IpMap) (ips : List String) : IpMap :=
  let curr_set := dedupFirst ips
  let m1 := curr_set.foldl
    (fun acc ip => dictSet acc ip ((dictGet acc ip).getD 0 + 1)) m
  m1.filter (fun p => curr_set.contains p.1)

/-- Embeds `_update_ip_streaks`: per current user, increment active IPs and
drop stale IPs (`IP_STREAKS` is a `defaultdict`, so a user of the current
snapshot always ends up with an entry, possibly an empty one); then drop
every user absent from the current snapshot. -/
def _update_ip_streaks (t : StreakTable) (current_active : List (String × List String)) :
    StreakTable :=
  let t1 := current_active.foldl
    (fun acc p => dictSet acc p.1 (updateUserStreaks ((dictGet acc p.1).getD []) p.2)) t
  t1.filter (fun p => current_active.any (fun q => q.1 == p.1))

/-- Embeds `_format_streak_messages`: users sorted by descending number of
active IPs (Python `sorted` is stable; `List.mergeSort` likewise), users
with an empty IP map skipped, IPs inside a block sorted by descending
streak, each line rendered as `- ip (streak word подряд)`. -/
def _format_streak_messages (t : StreakTable) : List String :=
  let users_sorted := t.mergeSort (fun a b => b.2.length ≤ a.2.length)
  users_sorted.foldr
    (fun (p : String × IpMap) (blocks : List String) =>
      if p.2.isEmpty then blocks
      else
        let ips_sorted := p.2.mergeSort (fun a b => b.2 ≤ a.2)
        let header := p.1 ++ " всего " ++ toString ips_sorted.length ++ " активных ip"
        let lines := ips_sorted.map
          (fun q => "- " ++ q.1 ++ " (" ++ toString q.2 ++ " "
            ++ _ru_plurals_logs (Int.ofNat q.2) ++ " подряд)")
        (header ++ "  \n" ++ String.intercalate "\n" lines) :: blocks)
    []

/-- Total of currently tracked IPs: `sum(len(v) for v in IP_STREAKS.values())`. -/
def totalIps (t : StreakTable) : Nat :=
  (t.map (fun p => p.2.length)).sum

/-- The summary line appended after the report blocks in `check_users_usage`. -/
def summaryLine (t : StreakTable) : String :=
  "---------\nВсего активных IP: <b>" ++ toString (totalIps t) ++ "</b>"

/-- Embeds the chunking comprehension
`[messages[i : i + 50] for i in range(0, len(messages), 50)]` generalized
to any positive chunk size: split a list into consecutive runs of `size`
elements, the last one possibly shorter. -/
def chunksOf {α : Type} (size : Nat) (l : List α) : List (List α) :=
  match l with
  | [] => []
  | x :: xs => (x :: xs.take (size - 1)) :: chunksOf size (xs.drop (size - 1))
termination_by l.length
decreasing_by
  simp only [List.length_cons, List.length_drop]
  omega

/-- The dispatched texts of one cycle: messages cut into chunks of at most
50, each chunk joined by a blank line (one `send_logs` call per chunk). -/
def sendChunksOf (messages : List String) : List String :=
  (chunksOf 50 messages).map (String.intercalate "\n\n")

/-- Configuration read by `read_config()` as `check_users_usage` consumes it:
`EXCEPT_USERS` (defaulted to `[]` by `.get`), `SPECIAL_LIMIT` (defaulted to
an empty dict by `.get`) and the required key `GENERAL_LIMIT`. -/
structure Config where
  EXCEPT_USERS : List String
  SPECIAL_LIMIT : List (String × Int)
  GENERAL_LIMIT : Int

/-- Side effects of the enforcement loop of `check_users_usage`, in program
order: `logger.warning(message)`, `await send_logs("<b>Warning: </b>" + message)`,
the `await disable_user(...)` call, and the `print(error)` of a caught
`ValueError`.  A warning carries the user name, the active-IP count and the
list of active IPs that the Python message interpolates. -/
inductive Event where
  | warn (user : String) (count : Nat) (ips : List String)
  | sendWarn (user : String) (count : Nat) (ips : List String)
  | disable (user : String)
  | printErr (user : String)
deriving Repr, DecidableEq

/-- User a given enforcement event concerns. -/
def eventUser : Event → String
  | .warn u _ _ => u
  | .sendWarn u _ _ => u
  | .disable u => u
  | .printErr u => u

/-- Recognizes the `print(error)` diagnostic event. -/
def isPrintErr : Event → Bool
  | .printErr _ => true
  | _ => false

/-- One iteration of the enforcement loop body of `check_users_usage`: skip
exempt users; otherwise take the `SPECIAL_LIMIT` override (default
`GENERAL_LIMIT`), and when the current active-IP count strictly exceeds it,
warn, notify, and invoke the disable action, printing the error when the
disable action raises a `ValueError` (oracle `fails`). -/
def enforceUser (cfg : Config) (fails : String → Bool) (user_name : String)
    (ip_map : IpMap) : List Event :=
  if cfg.EXCEPT_USERS.contains user_name then []
  else
    let user_limit_number := (dictGet cfg.SPECIAL_LIMIT user_name).getD cfg.GENERAL_LIMIT
    let active_ip_count := ip_map.length
    if (active_ip_count : Int) > user_limit_number then
      [Event.warn user_name active_ip_count (dictKeys ip_map),
       Event.sendWarn user_name active_ip_count (dictKeys ip_map),
       Event.disable user_name]
      ++ (if fails user_name then [Event.printErr user_name] else [])
    else []

/-- The whole enforcement loop `for user_name, ip_map in IP_STREAKS.items()`. -/
def enforcement (cfg : Config) (t : StreakTable) (fails : String → Bool) :
    List Event :=
  t.flatMap (fun p => enforceUser cfg fails p.1 p.2)

/-- State and effect trace left by one call of `check_users_usage`. -/
structure CycleResult where
  ACTIVE_USERS : Snapshot
  IP_STREAKS : StreakTable
  sentChunks : List String
  events : List Event
deriving Repr

/-- Embeds `check_users_usage`: reduce the snapshot (`check_ip_used`),
update the streak table (`_update_ip_streaks`), format the report blocks,
append the summary line, dispatch in chunks of 50, run the enforcement
loop, and finally clear `ACTIVE_USERS` while leaving `IP_STREAKS` as the
memory for the next cycle. -/
def check_users_usage (cfg : Config) (active_users : Snapshot)
    (ip_streaks : StreakTable) (fails : String → Bool) : CycleResult :=
  let all_users_log := check_ip_used active_users
  let streaks := _update_ip_streaks ip_streaks all_users_log
  let messages := _format_streak_messages streaks ++ [summaryLine streaks]
  { ACTIVE_USERS := []
    IP_STREAKS := streaks
    sentChunks := sendChunksOf messages
    events := enforcement cfg streaks fails }

/-- Runs `check_users_usage` once per given snapshot (the external session
poller repopulates `ACTIVE_USERS` before each cycle, as `run_check_users_usage`
loops), threading the streak table and concatenating the event traces. -/
def runCycles (cfg : Config) (fails : String → Bool) :
    StreakTable → List Snapshot → StreakTable × List Event
  | t, [] => (t, [])
  | t, s :: rest =>
      let r := check_users_usage cfg s t fails
      let later := runCycles cfg fails r.IP_STREAKS rest
      (later.1, r.events ++ later.2)

/-- Streak count currently recorded for a (user, IP) pair, if any. -/
def streakOf (t : StreakTable) (user ip : String) : Option Nat :=
  (dictGet t user).bind (fun m => dictGet m ip)

/-- Streak-table evolution alone across a list of snapshots: each cycle of
`check_users_usage` replaces the table by
`_update_ip_streaks table (check_ip_used snapshot)`. -/
def runStreaks : StreakTable → List Snapshot → StreakTable
  | t, [] => t
  | t, s :: rest => runStreaks (_update_ip_streaks t (check_ip_used s)) rest

/-! Lemmas about the dict model. -/

theorem dictGet_set_self {α : Type} (d : List (String × α)) (k : String) (v : α) :
    dictGet (dictSet d k v) k = some v := by
  induction d with
  | nil => simp [dictGet, dictSet]
  | cons p rest ih =>
      obtain ⟨k', v'⟩ := p
      by_cases h : k' = k
      · simp [dictGet, dictSet, h]
      · have hb : (k' == k) = false := beq_eq_false_iff_ne.mpr h
        simp [dictGet, dictSet, hb, ih]

theorem dictGet_set_ne {α : Type} (d : List (String × α)) (k k' : String) (v : α)
    (h : k' ≠ k) : dictGet (dictSet d k v) k' = dictGet d k' := by
  have hb : (k == k') = false := beq_eq_false_iff_ne.mpr (fun hh => h hh.symm)
  induction d with
  | nil => simp [dictGet, dictSet, hb]
  | cons p rest ih =>
      obtain ⟨k0, v0⟩ := p
      by_cases h0 : k0 = k
      · subst h0
        simp [dictSet, dictGet, hb]
      · have hb0 : (k0 == k) = false := beq_eq_false_iff_ne.mpr h0
        by_cases h1 : k0 = k'
        · simp [dictSet, dictGet, hb0, h1, h]
        · have hb1 : (k0 == k') = false := beq_eq_false_iff_ne.mpr h1
          simp [dictSet, dictGet, hb0, hb1, ih]

theorem dictGet_filter_key {α : Type} (d : List (String × α)) (p : String → Bool)
    (k : String) :
    dictGet (d.filter (fun q => p q.1)) k = if p k then dictGet d k else none := by
  induction d with
  | nil => simp [dictGet]
  | cons q rest ih =>
      obtain ⟨k0, v0⟩ := q
      by_cases h0 : k0 = k
      · subst h0
        cases hp : p k0 <;> simp [List.filter, hp, dictGet, ih]
      · cases hp : p k0 <;>
          simp [List.filter, hp, dictGet, ih, (by simpa using h0 : (k0 == k) = false)]

theorem dictGet_eq_none_of_not_mem_keys {α : Type} (d : List (String × α)) (k : String)
    (h : k ∉ dictKeys d) : dictGet d k = none := by
  induction d with
  | nil => rfl
  | cons q rest ih =>
      obtain ⟨k0, v0⟩ := q
      simp only [dictKeys, List.map_cons, List.mem_cons, not_or] at h
      have hb : (k0 == k) = false := beq_eq_false_iff_ne.mpr (fun hh => h.1 hh.symm)
      simp only [dictGet, hb, if_false, Bool.false_eq_true]
      exact ih (by simpa [dictKeys] using h.2)

theorem mem_keys_of_dictGet_eq_some {α : Type} (d : List (String × α)) (k : String)
    (v : α) (h : dictGet d k = some v) : k ∈ dictKeys d := by
  by_contra hk
  rw [dictGet_eq_none_of_not_mem_keys d k hk] at h
  exact Option.noConfusion h

/-! Lemmas about first-occurrence de-duplication. -/

theorem mem_dedupFirst (l : List String) (x : String) :
    x ∈ dedupFirst l ↔ x ∈ l := by
  induction l using dedupFirst.induct with
  | case1 => simp [dedupFirst]
  | case2 y ys ih =>
      rw [dedupFirst]
      by_cases hx : x = y
      · simp [hx]
      · simp only [List.mem_cons, hx, false_or, ih, List.mem_filter]
        simp [hx]

theorem nodup_dedupFirst (l : List String) : (dedupFirst l).Nodup := by
  induction l using dedupFirst.induct with
  | case1 => simp [dedupFirst]
  | case2 y ys ih =>
      rw [dedupFirst]
      refine List.Nodup.cons (fun hmem => ?_) ih
      rw [mem_dedupFirst] at hmem
      exact (by simpa using (List.mem_filter.mp hmem).2 : y ≠ y) rfl

theorem dedupFirst_nil_iff (l : List String) : dedupFirst l = [] ↔ l = [] := by
  cases l with
  | nil => simp [dedupFirst]
  | cons x xs => rw [dedupFirst]; simp

theorem contains_iff_mem (l : List String) (x : String) :
    l.contains x = true ↔ x ∈ l := by
  simp [List.contains, List.elem_iff]

theorem contains_dedupFirst (l : List String) (x : String) :
    (dedupFirst l).contains x = l.contains x := by
  rw [Bool.eq_iff_iff, contains_iff_mem, contains_iff_mem, mem_dedupFirst]

/-! Characterization of the streak update. -/

theorem dictGet_foldl_incr (l : List String) (d : IpMap) (k : String)
    (hnd : l.Nodup) :
    dictGet (l.foldl (fun acc ip => dictSet acc ip ((dictGet acc ip).getD 0 + 1)) d) k =
      if k ∈ l then some ((dictGet d k).getD 0 + 1) else dictGet d k := by
  induction l generalizing d with
  | nil => simp
  | cons x xs ih =>
      have hx : x ∉ xs := (List.nodup_cons.mp hnd).1
      rw [List.foldl_cons, ih _ (List.nodup_cons.mp hnd).2]
      by_cases hk : k = x
      · subst hk
        simp [hx, dictGet_set_self]
      · rw [dictGet_set_ne _ _ _ _ hk]
        by_cases hmem : k ∈ xs <;> simp [hmem, hk]

theorem dictGet_updateUserStreaks (m : IpMap) (ips : List String) (ip : String) :
    dictGet (updateUserStreaks m ips) ip =
      if ips.contains ip then some ((dictGet m ip).getD 0 + 1) else none := by
  rw [updateUserStreaks]
  rw [dictGet_filter_key _ _ ip, dictGet_foldl_incr _ _ _ (nodup_dedupFirst ips),
    contains_dedupFirst]
  by_cases hmem : ip ∈ ips
  · simp [hmem, (contains_iff_mem ips ip).mpr hmem, mem_dedupFirst]
  · have : ips.contains ip = false := by
      rw [Bool.eq_false_iff]
      exact fun hc => hmem ((contains_iff_mem ips ip).mp hc)
    simp [this, mem_dedupFirst, hmem]

theorem dictGet_foldl_users (cur : List (String × List String)) (t : StreakTable)
    (u : String) (hnd : (dictKeys cur).Nodup) :
    dictGet (cur.foldl
        (fun acc p => dictSet acc p.1 (updateUserStreaks ((dictGet acc p.1).getD []) p.2)) t)
      u =
      match dictGet cur u with
      | some ips => some (updateUserStreaks ((dictGet t u).getD []) ips)
      | none => dictGet t u := by
  induction cur generalizing t with
  | nil => simp [dictGet]
  | cons p rest ih =>
      obtain ⟨v, ips⟩ := p
      have hnd' : v ∉ dictKeys rest ∧ (dictKeys rest).Nodup := by
        rw [show dictKeys ((v, ips) :: rest) = v :: dictKeys rest from rfl,
          List.nodup_cons] at hnd
        exact hnd
      have hv : v ∉ dictKeys rest := hnd'.1
      have hndr : (dictKeys rest).Nodup := hnd'.2
      rw [List.foldl_cons, ih _ hndr]
      by_cases hu : u = v
      · subst hu
        have : dictGet rest u = none := dictGet_eq_none_of_not_mem_keys rest u hv
        simp [this, dictGet, dictGet_set_self]
      · have hb : (v == u) = false := beq_eq_false_iff_ne.mpr (fun hh => hu hh.symm)
        rw [dictGet_set_ne _ _ _ _ hu]
        simp [dictGet, hb]

theorem any_key_eq_isSome (cur : List (String × List String)) (u : String) :
    (cur.any (fun q => q.1 == u)) = (dictGet cur u).isSome := by
  induction cur with
  | nil => simp [dictGet]
  | cons p rest ih =>
      obtain ⟨v, ips⟩ := p
      by_cases hv : v = u
      · simp [dictGet, hv]
      · have hb : (v == u) = false := beq_eq_false_iff_ne.mpr hv
        simp [dictGet, hb, ih]

theorem dictGet_filter_anyKey (d : StreakTable) (cur : List (String × List String))
    (u : String) :
    dictGet (d.filter (fun p => cur.any (fun q => q.1 == p.1))) u =
      if cur.any (fun q => q.1 == u) then dictGet d u else none := by
  induction d with
  | nil => simp [dictGet]
  | cons q rest ih =>
      obtain ⟨k0, v0⟩ := q
      by_cases h0 : k0 = u
      · subst h0
        cases hp : cur.any (fun q => q.1 == k0) <;> simp [List.filter, hp, dictGet, ih]
      · have hb : (k0 == u) = false := beq_eq_false_iff_ne.mpr h0
        cases hp : cur.any (fun q => q.1 == k0) <;>
          simp [List.filter, hp, dictGet, ih, hb]

/-- One-step characterization of `_update_ip_streaks` at the level of a
user's entry: a user of the current snapshot keeps an (updated) entry, any
other user is dropped. -/
theorem dictGet_update_ip_streaks (t : StreakTable) (cur : List (String × List String))
    (u : String) (hnd : (dictKeys cur).Nodup) :
    dictGet (_update_ip_streaks t cur) u =
      match dictGet cur u with
      | some ips => some (updateUserStreaks ((dictGet t u).getD []) ips)
      | none => none := by
  rw [_update_ip_streaks]
  rw [dictGet_filter_anyKey _ cur u, any_key_eq_isSome, dictGet_foldl_users _ _ _ hnd]
  cases h : dictGet cur u <;> simp [h]

theorem dictKeys_check_ip_used (s : Snapshot) :
    dictKeys (check_ip_used s) = dictKeys s := by
  simp [check_ip_used, dictKeys]

theorem dictGet_check_ip_used (s : Snapshot) (u : String) :
    dictGet (check_ip_used s) u = (dictGet s u).map dedupFirst := by
  induction s with
  | nil => simp [check_ip_used, dictGet]
  | cons p rest ih =>
      obtain ⟨v, ips⟩ := p
      by_cases hv : v = u
      · simp [check_ip_used, dictGet, hv]
      · have hb : (v == u) = false := beq_eq_false_iff_ne.mpr hv
        simpa [check_ip_used, dictGet, hb] using ih

/-- One full cycle of the streak tracker, seen through `streakOf`: an IP
active for `u` in the snapshot gets its streak incremented (a fresh one
starts at `0 + 1`); any other (user, IP) pair is absent afterwards. -/
theorem streakOf_cycle (t : StreakTable) (s : Snapshot) (u ip : String)
    (hnd : (dictKeys s).Nodup) :
    streakOf (_update_ip_streaks t (check_ip_used s)) u ip =
      if ((dictGet s u).getD []).contains ip then
        some ((streakOf t u ip).getD 0 + 1)
      else none := by
  rw [streakOf, dictGet_update_ip_streaks _ _ _ (by rwa [dictKeys_check_ip_used]),
    dictGet_check_ip_used]
  cases hs : dictGet s u with
  | none => simp [dictGet]
  | some ips =>
      show dictGet (updateUserStreaks ((dictGet t u).getD []) (dedupFirst ips)) ip =
        if (ips.contains ip) then some ((streakOf t u ip).getD 0 + 1) else none
      rw [dictGet_updateUserStreaks, contains_dedupFirst]
      cases hc : ips.contains ip with
      | false => simp [hc]
      | true =>
          simp only [hc, Option.getD_some, if_true]
          cases ht : dictGet t u <;> simp [streakOf, ht, dictGet]

theorem runStreaks_append (t : StreakTable) (l1 l2 : List Snapshot) :
    runStreaks t (l1 ++ l2) = runStreaks (runStreaks t l1) l2 := by
  induction l1 generalizing t with
  | nil => simp [runStreaks]
  | cons s rest ih => rw [List.cons_append, runStreaks, runStreaks, ih]

/-- Running cycles in each of which `(u, ip)` is active adds the number of
cycles to the streak (a missing entry counting as zero), provided at least
one cycle runs. -/
theorem runStreaks_present (l : List Snapshot) (u ip : String)
    (h : ∀ s ∈ l, (dictKeys s).Nodup ∧ ((dictGet s u).getD []).contains ip = true)
    (t : StreakTable) (hne : l ≠ []) :
    streakOf (runStreaks t l) u ip = some ((streakOf t u ip).getD 0 + l.length) := by
  induction l generalizing t with
  | nil => exact absurd rfl hne
  | cons s rest ih =>
      have hs := h s (List.mem_cons_self s rest)
      have hstep : streakOf (_update_ip_streaks t (check_ip_used s)) u ip =
          some ((streakOf t u ip).getD 0 + 1) := by
        rw [streakOf_cycle t s u ip hs.1, hs.2]
        simp
      rw [runStreaks]
      cases rest with
      | nil => simpa [runStreaks] using hstep
      | cons s2 rest2 =>
          rw [ih (fun x hx => h x (List.mem_cons_of_mem s hx)) _ (by simp)]
          rw [hstep]
          simp only [Option.getD_some, List.length_cons, Option.some.injEq]
          omega

/-! Lemmas about report chunking. -/

theorem chunksOf_eq_take_drop {α : Type} (size : Nat) (l : List α) (hne : l ≠ [])
    (hs : 1 ≤ size) :
    chunksOf size l = l.take size :: chunksOf size (l.drop size) := by
  cases l with
  | nil => exact absurd rfl hne
  | cons x xs =>
      obtain ⟨m, rfl⟩ : ∃ m, size = m + 1 := ⟨size - 1, by omega⟩
      rw [chunksOf]
      simp

theorem chunksOf_length_le {α : Type} (size : Nat) (l : List α) (hs : 1 ≤ size) :
    ∀ c ∈ chunksOf size l, c.length ≤ size := by
  induction l using chunksOf.induct size with
  | case1 => intro c hc; simp [chunksOf] at hc
  | case2 x xs ih =>
      intro c hc
      rw [chunksOf] at hc
      rcases List.mem_cons.mp hc with h | h
      · subst h
        simp only [List.length_cons, List.length_take]
        omega
      · exact ih c h

theorem chunksOf_121 {α : Type} (blocks : List α) (s : α)
    (h120 : blocks.length = 120) :
    chunksOf 50 (blocks ++ [s]) =
      [List.take 50 blocks, List.take 50 (List.drop 50 blocks),
        List.drop 100 blocks ++ [s]] := by
  have hlen : (blocks ++ [s]).length = 121 := by simp [h120]
  rw [chunksOf_eq_take_drop 50 _ (by intro hh; rw [hh] at hlen; simp at hlen) (by omega)]
  rw [List.take_append_of_le_length (by omega), List.drop_append_of_le_length (by omega)]
  have hlen50 : (List.drop 50 blocks).length = 70 := by simp [h120]
  rw [chunksOf_eq_take_drop 50 _ (by simp) (by omega)]
  rw [List.take_append_of_le_length (by omega), List.drop_append_of_le_length (by omega),
    List.drop_drop]
  have hlen100 : (List.drop 100 blocks ++ [s]).length = 21 := by simp [h120]
  rw [chunksOf_eq_take_drop 50 _ (by simp) (by omega)]
  have h3take : List.take 50 (List.drop 100 blocks ++ [s]) = List.drop 100 blocks ++ [s] :=
    List.take_of_length_le (by omega)
  have h3drop : List.drop 50 (List.drop 100 blocks ++ [s]) = [] :=
    List.drop_eq_nil_of_le (by omega)
  rw [h3take, h3drop]
  simp [chunksOf]

/-! Lemmas about the enforcement loop. -/

theorem eventUser_enforceUser (cfg : Config) (fails : String → Bool) (u : String)
    (m : IpMap) (e : Event) (he : e ∈ enforceUser cfg fails u m) : eventUser e = u := by
  simp only [enforceUser] at he
  split at he
  · exact absurd he (List.not_mem_nil e)
  · split at he
    · rcases List.mem_append.mp he with h | h
      · rcases List.mem_cons.mp h with h | h
        · rw [h]; rfl
        · rcases List.mem_cons.mp h with h | h
          · rw [h]; rfl
          · rcases List.mem_cons.mp h with h | h
            · rw [h]; rfl
            · exact absurd h (List.not_mem_nil e)
      · split at h
        · rcases List.mem_cons.mp h with h | h
          · rw [h]; rfl
          · exact absurd h (List.not_mem_nil e)
        · exact absurd h (List.not_mem_nil e)
    · exact absurd he (List.not_mem_nil e)

theorem except_enforceUser (cfg : Config) (fails : String → Bool) (u : String)
    (m : IpMap) (h : cfg.EXCEPT_USERS.contains u = true) :
    enforceUser cfg fails u m = [] := by
  have hm : u ∈ cfg.EXCEPT_USERS := (contains_iff_mem _ _).mp h
  simp [enforceUser, hm]

theorem mem_enforcement_not_except (cfg : Config) (t : StreakTable)
    (fails : String → Bool) (e : Event) (he : e ∈ enforcement cfg t fails) :
    cfg.EXCEPT_USERS.contains (eventUser e) = false := by
  rw [enforcement, List.mem_flatMap] at he
  obtain ⟨p, hp, hmem⟩ := he
  rw [eventUser_enforceUser cfg fails p.1 p.2 e hmem]
  by_contra hc
  rw [Bool.not_eq_false] at hc
  rw [except_enforceUser cfg fails p.1 p.2 hc] at hmem
  simp at hmem

theorem enforceUser_flag_iff (cfg : Config) (fails : String → Bool) (u : String)
    (m : IpMap) (hexc : cfg.EXCEPT_USERS.contains u = false) :
    ((Event.warn u m.length (dictKeys m) ∈ enforceUser cfg fails u m) ↔
        ((m.length : Int) > (dictGet cfg.SPECIAL_LIMIT u).getD cfg.GENERAL_LIMIT)) ∧
    ((Event.sendWarn u m.length (dictKeys m) ∈ enforceUser cfg fails u m) ↔
        ((m.length : Int) > (dictGet cfg.SPECIAL_LIMIT u).getD cfg.GENERAL_LIMIT)) ∧
    ((Event.disable u ∈ enforceUser cfg fails u m) ↔
        ((m.length : Int) > (dictGet cfg.SPECIAL_LIMIT u).getD cfg.GENERAL_LIMIT)) := by
  have hm : u ∉ cfg.EXCEPT_USERS := fun hmem => by
    rw [(contains_iff_mem cfg.EXCEPT_USERS u).mpr hmem] at hexc
    exact Bool.noConfusion hexc
  by_cases hf : (m.length : Int) > (dictGet cfg.SPECIAL_LIMIT u).getD cfg.GENERAL_LIMIT <;>
    cases hff : fails u <;> simp [enforceUser, hm, hf, hff]

theorem keys_nodup_unique {α : Type} (t : List (String × α))
    (hnd : (dictKeys t).Nodup) (u : String) (a b : α)
    (ha : (u, a) ∈ t) (hb : (u, b) ∈ t) : a = b := by
  have := List.inj_on_of_nodup_map (f := Prod.fst) (by simpa [dictKeys] using hnd)
    ha hb rfl
  exact congrArg Prod.snd this

theorem mem_enforcement_iff_mem_enforceUser (cfg : Config) (t : StreakTable)
    (fails : String → Bool) (u : String) (m : IpMap) (e : Event)
    (hnd : (dictKeys t).Nodup) (hmem : (u, m) ∈ t) (hu : eventUser e = u) :
    e ∈ enforcement cfg t fails ↔ e ∈ enforceUser cfg fails u m := by
  constructor
  · intro he
    rw [enforcement, List.mem_flatMap] at he
    obtain ⟨p, hp, hin⟩ := he
    have h1 : p.1 = u := by rw [← eventUser_enforceUser cfg fails p.1 p.2 e hin, hu]
    have h2 : p.2 = m := by
      refine keys_nodup_unique t hnd u p.2 m (by simpa [← h1] using hp) hmem
    rwa [h1, h2] at hin
  · intro he
    rw [enforcement, List.mem_flatMap]
    exact ⟨(u, m), hmem, he⟩

theorem not_mem_of_contains_false {l : List String} {u : String}
    (h : l.contains u = false) : u ∉ l := fun hmem => by
  rw [(contains_iff_mem l u).mpr hmem] at h
  exact Bool.noConfusion h

theorem enforcement_cons (cfg : Config) (p : String × IpMap) (rest : StreakTable)
    (fails : String → Bool) :
    enforcement cfg (p :: rest) fails =
      enforceUser cfg fails p.1 p.2 ++ enforcement cfg rest fails := by
  rw [enforcement, enforcement, List.flatMap_cons]

theorem filter_not_printErr_enforceUser (cfg : Config) (fails : String → Bool)
    (u : String) (m : IpMap) :
    (enforceUser cfg fails u m).filter (fun e => !(isPrintErr e)) =
      enforceUser cfg (fun _ => false) u m := by
  by_cases h1 : cfg.EXCEPT_USERS.contains u = true
  · rw [except_enforceUser _ _ _ _ h1, except_enforceUser _ _ _ _ h1]
    rfl
  · have hm : u ∉ cfg.EXCEPT_USERS :=
      not_mem_of_contains_false (Bool.not_eq_true _ ▸ h1)
    by_cases hf : (m.length : Int) > (dictGet cfg.SPECIAL_LIMIT u).getD cfg.GENERAL_LIMIT <;>
      cases hff : fails u <;>
        simp [enforceUser, hm, hf, hff, isPrintErr, List.filter]

theorem filter_not_printErr_enforcement (cfg : Config) (t : StreakTable)
    (fails : String → Bool) :
    (enforcement cfg t fails).filter (fun e => !(isPrintErr e)) =
      enforcement cfg t (fun _ => false) := by
  induction t with
  | nil => rfl
  | cons p rest ih =>
      rw [enforcement_cons, enforcement_cons, List.filter_append,
        filter_not_printErr_enforceUser, ih]

theorem count_disable_enforceUser_ne (cfg : Config) (fails : String → Bool)
    (v : String) (m : IpMap) (u : String) (hvu : v ≠ u) :
    (enforceUser cfg fails v m).count (Event.disable u) = 0 :=
  List.count_eq_zero.mpr (fun hmem =>
    hvu (show v = u from (eventUser_enforceUser cfg fails v m _ hmem).symm))

theorem count_disable_enforceUser_self (cfg : Config) (fails : String → Bool)
    (u : String) (m : IpMap)
    (hexc : cfg.EXCEPT_USERS.contains u = false)
    (hf : (m.length : Int) > (dictGet cfg.SPECIAL_LIMIT u).getD cfg.GENERAL_LIMIT) :
    (enforceUser cfg fails u m).count (Event.disable u) = 1 := by
  have hm : u ∉ cfg.EXCEPT_USERS := not_mem_of_contains_false hexc
  cases hff : fails u <;>
    simp [enforceUser, hm, hf, hff, List.count_cons]

theorem count_disable_flatMap_zero (cfg : Config) (fails : String → Bool)
    (u : String) (l : StreakTable) (h : u ∉ dictKeys l) :
    ((l.flatMap (fun p => enforceUser cfg fails p.1 p.2)).count (Event.disable u)) = 0 := by
  induction l with
  | nil => rfl
  | cons p rest ih =>
      have h1 : p.1 ≠ u := fun hh => h (by simp [dictKeys, hh])
      have h2 : u ∉ dictKeys rest := fun hh => h (by
        simp only [dictKeys, List.map_cons, List.mem_cons]
        exact Or.inr (by simpa [dictKeys] using hh))
      rw [List.flatMap_cons, List.count_append,
        count_disable_enforceUser_ne cfg fails p.1 p.2 u h1, ih h2]

theorem not_mem_keys_of_append_nodup {α : Type} (t1 t2 : List (String × α))
    (u : String) (m : α)
    (hnd : (dictKeys (t1 ++ (u, m) :: t2)).Nodup) :
    u ∉ dictKeys t1 ∧ u ∉ dictKeys t2 := by
  rw [show dictKeys (t1 ++ (u, m) :: t2) = dictKeys t1 ++ u :: dictKeys t2 by
    simp [dictKeys]] at hnd
  rw [List.nodup_append] at hnd
  obtain ⟨h1, h2, hdisj⟩ := hnd
  exact ⟨fun hu => hdisj hu (List.mem_cons_self u _), (List.nodup_cons.mp h2).1⟩

theorem count_disable_enforcement (cfg : Config) (t : StreakTable)
    (fails : String → Bool) (u : String) (m : IpMap)
    (hnd : (dictKeys t).Nodup) (hmem : (u, m) ∈ t)
    (hexc : cfg.EXCEPT_USERS.contains u = false)
    (hf : (m.length : Int) > (dictGet cfg.SPECIAL_LIMIT u).getD cfg.GENERAL_LIMIT) :
    (enforcement cfg t fails).count (Event.disable u) = 1 := by
  obtain ⟨t1, t2, rfl⟩ := List.append_of_mem hmem
  obtain ⟨hk1, hk2⟩ := not_mem_keys_of_append_nodup t1 t2 u m hnd
  rw [enforcement, List.flatMap_append, List.flatMap_cons, List.count_append,
    List.count_append, count_disable_flatMap_zero cfg fails u t1 hk1,
    count_disable_flatMap_zero cfg fails u t2 hk2,
    count_disable_enforceUser_self cfg fails u m hexc hf]

theorem printErr_mem_enforcement (cfg : Config) (t : StreakTable)
    (fails : String → Bool) (u : String) (m : IpMap) (hmem : (u, m) ∈ t)
    (hexc : cfg.EXCEPT_USERS.contains u = false)
    (hf : (m.length : Int) > (dictGet cfg.SPECIAL_LIMIT u).getD cfg.GENERAL_LIMIT)
    (hfail : fails u = true) :
    Event.printErr u ∈ enforcement cfg t fails := by
  rw [enforcement, List.mem_flatMap]
  refine ⟨(u, m), hmem, ?_⟩
  have hm : u ∉ cfg.EXCEPT_USERS := not_mem_of_contains_false hexc
  simp [enforceUser, hm, hf, hfail]

theorem runCycles_events_sub (cfg : Config) (fails : String → Bool)
    (t : StreakTable) (snaps : List Snapshot) (e : Event)
    (he : e ∈ (runCycles cfg fails t snaps).2) :
    ∃ t', e ∈ enforcement cfg t' fails := by
  induction snaps generalizing t with
  | nil => simp [runCycles] at he
  | cons s rest ih =>
      rw [runCycles] at he
      rcases List.mem_append.mp he with h | h
      · exact ⟨(check_users_usage cfg s t fails).IP_STREAKS, h⟩
      · exact ih _ h

/-! Order-preservation of first-occurrence de-duplication. -/

theorem indexOf_filter_lt (p : String → Bool) (xs : List String) (a b : String)
    (ha : a ∈ xs.filter p) (hb : b ∈ xs.filter p)
    (hlt : (xs.filter p).indexOf a < (xs.filter p).indexOf b) :
    xs.indexOf a < xs.indexOf b := by
  induction xs with
  | nil => simp at ha
  | cons y ys ih =>
      by_cases hp : p y = true
      · rw [List.filter_cons_of_pos hp] at ha hb hlt
        by_cases hay : a = y
        · subst hay
          have hba : b ≠ a := by
            intro hh
            subst hh
            exact Nat.lt_irrefl _ hlt
          rw [List.indexOf_cons_self]
          rw [List.indexOf_cons_ne _ (fun hh => hba hh.symm)]
          exact Nat.succ_pos _
        · have hya : y ≠ a := fun hh => hay hh.symm
          rw [List.indexOf_cons_ne _ hya] at hlt
          by_cases hby : b = y
          · subst hby
            rw [List.indexOf_cons_self] at hlt
            exact absurd hlt (Nat.not_lt_zero _)
          · have hyb : y ≠ b := fun hh => hby hh.symm
            rw [List.indexOf_cons_ne _ hyb] at hlt
            have ha' : a ∈ ys.filter p := by
              rcases List.mem_cons.mp ha with h | h
              · exact absurd h hay
              · exact h
            have hb' : b ∈ ys.filter p := by
              rcases List.mem_cons.mp hb with h | h
              · exact absurd h hby
              · exact h
            rw [List.indexOf_cons_ne _ hya, List.indexOf_cons_ne _ hyb]
            exact Nat.succ_lt_succ (ih ha' hb' (Nat.lt_of_succ_lt_succ hlt))
      · rw [List.filter_cons_of_neg (by simpa using hp)] at ha hb hlt
        have hane : a ≠ y := fun hh => hp (hh ▸ (List.mem_filter.mp ha).2)
        have hbne : b ≠ y := fun hh => hp (hh ▸ (List.mem_filter.mp hb).2)
        rw [List.indexOf_cons_ne _ (fun hh => hane hh.symm),
          List.indexOf_cons_ne _ (fun hh => hbne hh.symm)]
        exact Nat.succ_lt_succ (ih ha hb hlt)

theorem dedupFirst_pairwise (l : List String) :
    (dedupFirst l).Pairwise (fun a b => l.indexOf a < l.indexOf b) := by
  induction l using dedupFirst.induct with
  | case1 => simp [dedupFirst]
  | case2 x xs ih =>
      rw [dedupFirst]
      refine List.Pairwise.cons ?_ ?_
      · intro b hb
        have hbf : b ∈ xs.filter (fun y => y ≠ x) :=
          (mem_dedupFirst _ b).mp hb
        have hbne : b ≠ x := by simpa using (List.mem_filter.mp hbf).2
        rw [List.indexOf_cons_self, List.indexOf_cons_ne _ (fun hh => hbne hh.symm)]
        exact Nat.succ_pos _
      · refine List.Pairwise.imp_of_mem ?_ ih
        intro a b hma hmb hlt
        have haf : a ∈ xs.filter (fun y => y ≠ x) := (mem_dedupFirst _ a).mp hma
        have hbf : b ∈ xs.filter (fun y => y ≠ x) := (mem_dedupFirst _ b).mp hmb
        have hane : a ≠ x := by simpa using (List.mem_filter.mp haf).2
        have hbne : b ≠ x := by simpa using (List.mem_filter.mp hbf).2
        have hxs := indexOf_filter_lt (fun y => decide (y ≠ x)) xs a b haf hbf hlt
        rw [List.indexOf_cons_ne _ (fun hh => hane hh.symm),
          List.indexOf_cons_ne _ (fun hh => hbne hh.symm)]
        exact Nat.succ_lt_succ hxs

/-! Claim theorems. -/

/-- C7: after `check_users_usage` completes, the session snapshot
(`ACTIVE_USERS`) is empty, while the streak table (`IP_STREAKS`) is not
cleared and still holds exactly the entries produced by this cycle's
streak update, serving as memory for the next cycle. -/
theorem C7_end_of_cycle_frame (cfg : Config) (active_users : Snapshot)
    (t : StreakTable) (fails : String → Bool) :
    (check_users_usage cfg active_users t fails).ACTIVE_USERS = [] ∧
    (check_users_usage cfg active_users t fails).IP_STREAKS =
      _update_ip_streaks t (check_ip_used active_users) :=
  ⟨rfl, rfl⟩

/-- C9: Russian pluralization of the word for "log": count mod 100 in
[11,14] gives the plural-genitive form; otherwise last digit 1 the
singular, last digit 2..4 the plural, anything else the plural-genitive;
and the twelve tabulated counts map to the tabulated forms. -/
theorem C9_ru_plurals :
    (∀ n : Int,
      ((11 ≤ n.natAbs % 100 ∧ n.natAbs % 100 ≤ 14) → _ru_plurals_logs n = "логов") ∧
      (¬(11 ≤ n.natAbs % 100 ∧ n.natAbs % 100 ≤ 14) → n.natAbs % 10 = 1 →
        _ru_plurals_logs n = "лог") ∧
      (¬(11 ≤ n.natAbs % 100 ∧ n.natAbs % 100 ≤ 14) →
        (2 ≤ n.natAbs % 10 ∧ n.natAbs % 10 ≤ 4) → _ru_plurals_logs n = "лога") ∧
      (¬(11 ≤ n.natAbs % 100 ∧ n.natAbs % 100 ≤ 14) → ¬(n.natAbs % 10 = 1) →
        ¬(2 ≤ n.natAbs % 10 ∧ n.natAbs % 10 ≤ 4) → _ru_plurals_logs n = "логов")) ∧
    (_ru_plurals_logs 1 = "лог" ∧ _ru_plurals_logs 2 = "лога" ∧
      _ru_plurals_logs 3 = "лога" ∧ _ru_plurals_logs 4 = "лога" ∧
      _ru_plurals_logs 5 = "логов" ∧ _ru_plurals_logs 11 = "логов" ∧
      _ru_plurals_logs 12 = "логов" ∧ _ru_plurals_logs 21 = "лог" ∧
      _ru_plurals_logs 22 = "лога" ∧ _ru_plurals_logs 101 = "лог" ∧
      _ru_plurals_logs 111 = "логов" ∧ _ru_plurals_logs 112 = "логов") := by
  refine ⟨fun n => ⟨?_, ?_, ?_, ?_⟩, by decide⟩
  · intro h
    simp only [_ru_plurals_logs]
    rw [if_pos h]
  · intro h h1
    simp only [_ru_plurals_logs]
    rw [if_neg h, if_pos h1]
  · intro h h2
    simp only [_ru_plurals_logs]
    rw [if_neg h, if_neg (by omega), if_pos h2]
  · intro h h1 h2
    simp only [_ru_plurals_logs]
    rw [if_neg h, if_neg h1, if_neg h2]

/-- C9 witness: the theorem applied at count 12 (a teen number, giving the
plural-genitive form despite the last digit 2). -/
theorem C9_witness : _ru_plurals_logs 12 = "логов" :=
  (C9_ru_plurals.1 12).1 (by decide)

/-- C8: `check_ip_used` maps every user of the session snapshot to the
first-occurrence de-duplication of that user's raw IP occurrence list: the
result has no duplicates, has the same members, and lists them by strictly
increasing first-occurrence position; an empty occurrence list gives an
empty IP list. -/
theorem C8_snapshot_reduction (active_users : Snapshot) (u : String)
    (ips : List String) (h : dictGet active_users u = some ips) :
    dictGet (check_ip_used active_users) u = some (dedupFirst ips) ∧
    (dedupFirst ips).Nodup ∧
    (∀ x, x ∈ dedupFirst ips ↔ x ∈ ips) ∧
    (dedupFirst ips).Pairwise (fun a b => ips.indexOf a < ips.indexOf b) ∧
    (ips = [] → dedupFirst ips = []) := by
  refine ⟨?_, nodup_dedupFirst ips, fun x => mem_dedupFirst ips x,
    dedupFirst_pairwise ips, ?_⟩
  · rw [dictGet_check_ip_used, h]
    rfl
  · intro hh
    rw [hh]
    exact (dedupFirst_nil_iff []).mpr rfl

/-- C8 witness: the spec's concrete example, with duplicates removed and
first-occurrence order kept. -/
theorem C8_witness :
    dictGet (check_ip_used [("u", ["3.3.3.3", "1.1.1.1", "3.3.3.3"])]) "u" =
      some ["3.3.3.3", "1.1.1.1"] ∧
    dedupFirst ["3.3.3.3", "1.1.1.1", "3.3.3.3"] = ["3.3.3.3", "1.1.1.1"] := by
  have hd : dedupFirst ["3.3.3.3", "1.1.1.1", "3.3.3.3"] = ["3.3.3.3", "1.1.1.1"] := by
    simp [dedupFirst]
  have h := C8_snapshot_reduction [("u", ["3.3.3.3", "1.1.1.1", "3.3.3.3"])] "u"
    ["3.3.3.3", "1.1.1.1", "3.3.3.3"] rfl
  exact ⟨h.1.trans (by rw [hd]), hd⟩

/-- C2 counterexample: a user present in the current snapshot with an
empty IP list is NOT entirely removed by `_update_ip_streaks` — an entry
holding an empty mapping remains for that user, contrary to the claim. -/
theorem C2_counterexample :
    dictGet (_update_ip_streaks [("u", [("1.2.3.4", 3)])]
      (check_ip_used [("u", [])])) "u" = some [] := by
  simp [check_ip_used, _update_ip_streaks, updateUserStreaks, dedupFirst,
    dictGet, dictSet]

/-- C2 amended: a user entirely absent from the current snapshot is removed
outright from the streak table by `_update_ip_streaks`; a user present in
the snapshot with an empty active set is not removed — the update leaves
(or creates, via the `defaultdict` access) an empty mapping for it. -/
theorem C2_amended (t : StreakTable) (active_users : Snapshot) (u : String)
    (hnd : (dictKeys active_users).Nodup) :
    (dictGet active_users u = none →
      dictGet (_update_ip_streaks t (check_ip_used active_users)) u = none) ∧
    (dictGet active_users u = some [] →
      dictGet (_update_ip_streaks t (check_ip_used active_users)) u = some []) := by
  have hnd' : (dictKeys (check_ip_used active_users)).Nodup := by
    rwa [dictKeys_check_ip_used]
  have h0 : ∀ m : IpMap, updateUserStreaks m [] = [] := by
    intro m
    simp only [updateUserStreaks]
    simp [dedupFirst]
  constructor
  · intro h
    rw [dictGet_update_ip_streaks _ _ _ hnd', dictGet_check_ip_used, h]
    rfl
  · intro h
    rw [dictGet_update_ip_streaks _ _ _ hnd', dictGet_check_ip_used, h]
    show some (updateUserStreaks ((dictGet t u).getD []) (dedupFirst [])) = some []
    rw [show dedupFirst [] = [] from (dedupFirst_nil_iff []).mpr rfl, h0]

/-- C2 amended witness: the theorem applied to a snapshot missing user
`u` (entry removed) and to a snapshot holding `v` with an empty list (an
empty mapping kept). -/
theorem C2_amended_witness :
    dictGet (_update_ip_streaks [("u", [("1.2.3.4", 3)])] (check_ip_used [])) "u" =
      none ∧
    dictGet (_update_ip_streaks [] (check_ip_used [("v", [])])) "v" = some [] :=
  ⟨(C2_amended [("u", [("1.2.3.4", 3)])] [] "u" (by simp [dictKeys])).1 rfl,
    (C2_amended [] [("v", [])] "v" (by simp [dictKeys])).2 rfl⟩

/-- C3: the cycle dispatches exactly the chunks of the report-block
sequence with the summary line appended, cut at 50 messages per chunk;
every chunk holds at most 50 messages; and with exactly 120 report blocks
there are exactly 3 dispatch calls, whose report-block counts are 50, 50
and 20 (the third chunk additionally carrying the appended summary line). -/
theorem C3_report_chunking :
    (∀ (cfg : Config) (active_users : Snapshot) (t : StreakTable)
        (fails : String → Bool),
      (check_users_usage cfg active_users t fails).sentChunks =
        sendChunksOf (_format_streak_messages
            (_update_ip_streaks t (check_ip_used active_users)) ++
          [summaryLine (_update_ip_streaks t (check_ip_used active_users))])) ∧
    (∀ (msgs : List String) (c : List String), c ∈ chunksOf 50 msgs →
      c.length ≤ 50) ∧
    (∀ (blocks : List String) (s : String), blocks.length = 120 →
      sendChunksOf (blocks ++ [s]) =
        [String.intercalate "\n\n" (List.take 50 blocks),
         String.intercalate "\n\n" (List.take 50 (List.drop 50 blocks)),
         String.intercalate "\n\n" (List.drop 100 blocks ++ [s])] ∧
      (List.take 50 blocks).length = 50 ∧
      (List.take 50 (List.drop 50 blocks)).length = 50 ∧
      (List.drop 100 blocks).length = 20) := by
  refine ⟨fun cfg au t fails => rfl,
    fun msgs c hc => chunksOf_length_le 50 msgs (by omega) c hc, ?_⟩
  intro blocks s h120
  refine ⟨?_, by simp [h120], by simp [h120], by simp [h120]⟩
  rw [sendChunksOf, chunksOf_121 blocks s h120]
  rfl

/-- C3 witness: the theorem applied to 120 concrete report blocks, giving
the three chunk texts. -/
theorem C3_witness :
    sendChunksOf (List.replicate 120 "b" ++ ["s"]) =
      [String.intercalate "\n\n" (List.take 50 (List.replicate 120 "b")),
       String.intercalate "\n\n" (List.take 50 (List.drop 50 (List.replicate 120 "b"))),
       String.intercalate "\n\n" (List.drop 100 (List.replicate 120 "b") ++ ["s"])] :=
  (C3_report_chunking.2.2 (List.replicate 120 "b") "s" (by simp)).1

/-- C10: every cycle dispatches at least one message: the summary line
reporting the total tracked-IP count is appended after the report blocks,
so when the formatter yields no blocks the single dispatched chunk is the
summary line alone. -/
theorem C10_always_dispatch (cfg : Config) (active_users : Snapshot)
    (t : StreakTable) (fails : String → Bool) :
    (check_users_usage cfg active_users t fails).sentChunks ≠ [] ∧
    (summaryLine (_update_ip_streaks t (check_ip_used active_users)) =
      "---------\nВсего активных IP: <b>" ++
        toString ((( _update_ip_streaks t (check_ip_used active_users)).map
          (fun p => p.2.length)).sum) ++ "</b>") ∧
    (_format_streak_messages (_update_ip_streaks t (check_ip_used active_users)) = [] →
      (check_users_usage cfg active_users t fails).sentChunks =
        [summaryLine (_update_ip_streaks t (check_ip_used active_users))]) := by
  refine ⟨?_, rfl, ?_⟩
  · show sendChunksOf (_format_streak_messages
        (_update_ip_streaks t (check_ip_used active_users)) ++
      [summaryLine (_update_ip_streaks t (check_ip_used active_users))]) ≠ []
    rw [sendChunksOf, chunksOf_eq_take_drop 50 _ (by simp) (by omega)]
    simp
  · intro h
    show sendChunksOf (_format_streak_messages
        (_update_ip_streaks t (check_ip_used active_users)) ++
      [summaryLine (_update_ip_streaks t (check_ip_used active_users))]) =
      [summaryLine (_update_ip_streaks t (check_ip_used active_users))]
    rw [h]
    rw [List.nil_append, sendChunksOf,
      chunksOf_eq_take_drop 50 _ (by simp) (by omega)]
    simp [chunksOf, String.intercalate, String.intercalate.go]

/-- C10 witness: the theorem applied to an empty snapshot and empty table:
one dispatch happens and it is the summary line alone. -/
theorem C10_witness :
    (check_users_usage ⟨[], [], 3⟩ [] [] (fun _ => false)).sentChunks =
      [summaryLine []] ∧
    (check_users_usage ⟨[], [], 3⟩ [] [] (fun _ => false)).sentChunks ≠ [] := by
  have h := C10_always_dispatch ⟨[], [], 3⟩ [] [] (fun _ => false)
  refine ⟨?_, h.1⟩
  have hempty : _format_streak_messages (_update_ip_streaks [] (check_ip_used [])) = [] := by
    simp [check_ip_used, _update_ip_streaks, _format_streak_messages]
  exact h.2.2 hempty

/-- C4: a user of the streak table and not exempt is flagged (warning
logged, admin notification sent, disable action invoked) exactly when the
current distinct active-IP count strictly exceeds the effective limit,
which is the `SPECIAL_LIMIT` override when present and `GENERAL_LIMIT`
otherwise. -/
theorem C4_limit_evaluation :
    (∀ (cfg : Config) (active_users : Snapshot) (t : StreakTable)
        (fails : String → Bool),
      (check_users_usage cfg active_users t fails).events =
        enforcement cfg (_update_ip_streaks t (check_ip_used active_users)) fails) ∧
    (∀ (cfg : Config) (t : StreakTable) (fails : String → Bool) (u : String)
        (m : IpMap),
      (dictKeys t).Nodup → (u, m) ∈ t → cfg.EXCEPT_USERS.contains u = false →
      ((Event.warn u m.length (dictKeys m) ∈ enforcement cfg t fails ↔
          (m.length : Int) > (dictGet cfg.SPECIAL_LIMIT u).getD cfg.GENERAL_LIMIT) ∧
       (Event.sendWarn u m.length (dictKeys m) ∈ enforcement cfg t fails ↔
          (m.length : Int) > (dictGet cfg.SPECIAL_LIMIT u).getD cfg.GENERAL_LIMIT) ∧
       (Event.disable u ∈ enforcement cfg t fails ↔
          (m.length : Int) > (dictGet cfg.SPECIAL_LIMIT u).getD cfg.GENERAL_LIMIT))) := by
  refine ⟨fun cfg au t fails => rfl, ?_⟩
  intro cfg t fails u m hnd hmem hexc
  obtain ⟨hw, hs, hd⟩ := enforceUser_flag_iff cfg fails u m hexc
  exact ⟨(mem_enforcement_iff_mem_enforceUser cfg t fails u m
      (Event.warn u m.length (dictKeys m)) hnd hmem rfl).trans hw,
    (mem_enforcement_iff_mem_enforceUser cfg t fails u m
      (Event.sendWarn u m.length (dictKeys m)) hnd hmem rfl).trans hs,
    (mem_enforcement_iff_mem_enforceUser cfg t fails u m
      (Event.disable u) hnd hmem rfl).trans hd⟩

/-- C4 witness: with `GENERAL_LIMIT = 3` and `SPECIAL_LIMIT` giving alice
5, bob with 4 distinct active IPs is flagged while alice with 4 is not. -/
theorem C4_witness :
    Event.disable "bob" ∈
      enforcement ⟨[], [("alice", 5)], 3⟩
        [("bob", [("1", 1), ("2", 1), ("3", 1), ("4", 1)])] (fun _ => false) ∧
    Event.disable "alice" ∉
      enforcement ⟨[], [("alice", 5)], 3⟩
        [("alice", [("1", 1), ("2", 1), ("3", 1), ("4", 1)])] (fun _ => false) := by
  constructor
  · exact (C4_limit_evaluation.2 ⟨[], [("alice", 5)], 3⟩
      [("bob", [("1", 1), ("2", 1), ("3", 1), ("4", 1)])] (fun _ => false) "bob"
      [("1", 1), ("2", 1), ("3", 1), ("4", 1)]
      (by decide) (by decide) (by decide)).2.2.mpr (by decide)
  · intro hmem
    exact absurd ((C4_limit_evaluation.2 ⟨[], [("alice", 5)], 3⟩
      [("alice", [("1", 1), ("2", 1), ("3", 1), ("4", 1)])] (fun _ => false) "alice"
      [("1", 1), ("2", 1), ("3", 1), ("4", 1)]
      (by decide) (by decide) (by decide)).2.2.mp hmem) (by decide)

/-- C5: a user in the exempt set is never flagged and the disable action
is never invoked for it, in any cycle of any sequence of cycles, no matter
how many active IPs it has. -/
theorem C5_exempt_never_flagged (cfg : Config) (fails : String → Bool)
    (t : StreakTable) (snaps : List Snapshot) (u : String)
    (hexc : cfg.EXCEPT_USERS.contains u = true) :
    ∀ e ∈ (runCycles cfg fails t snaps).2, eventUser e ≠ u := by
  intro e he hu
  obtain ⟨t', ht'⟩ := runCycles_events_sub cfg fails t snaps e he
  have hne := mem_enforcement_not_except cfg t' fails e ht'
  rw [hu, hexc] at hne
  exact Bool.noConfusion hne

/-- C5 witness: an exempt user with 3 active IPs and a limit of 0 is not
disabled during a cycle. -/
theorem C5_witness :
    Event.disable "vip" ∉ (runCycles ⟨["vip"], [], 0⟩ (fun _ => false) []
      [[("vip", ["1", "2", "3"])]]).2 :=
  fun h => C5_exempt_never_flagged ⟨["vip"], [], 0⟩ (fun _ => false) []
    [[("vip", ["1", "2", "3"])]] "vip" (by decide) (Event.disable "vip") h rfl

/-- C6: a disable failure (value error) is only printed to the diagnostic
stream and changes nothing else: the streak table of the cycle and the
non-diagnostic event trace are identical to a failure-free run, the error
is logged, and the disable action is invoked exactly once for the failing
user (no retry within the cycle). -/
theorem C6_error_atomicity :
    (∀ (cfg : Config) (active_users : Snapshot) (t : StreakTable)
        (fails : String → Bool),
      (check_users_usage cfg active_users t fails).IP_STREAKS =
        (check_users_usage cfg active_users t (fun _ => false)).IP_STREAKS ∧
      (check_users_usage cfg active_users t fails).events.filter
          (fun e => !(isPrintErr e)) =
        (check_users_usage cfg active_users t (fun _ => false)).events) ∧
    (∀ (cfg : Config) (t : StreakTable) (fails : String → Bool) (u : String)
        (m : IpMap),
      (dictKeys t).Nodup → (u, m) ∈ t → cfg.EXCEPT_USERS.contains u = false →
      (m.length : Int) > (dictGet cfg.SPECIAL_LIMIT u).getD cfg.GENERAL_LIMIT →
      fails u = true →
      Event.printErr u ∈ enforcement cfg t fails ∧
      (enforcement cfg t fails).count (Event.disable u) = 1) := by
  refine ⟨fun cfg au t fails =>
    ⟨rfl, filter_not_printErr_enforcement cfg _ fails⟩, ?_⟩
  intro cfg t fails u m hnd hmem hexc hf hfail
  exact ⟨printErr_mem_enforcement cfg t fails u m hmem hexc hf hfail,
    count_disable_enforcement cfg t fails u m hnd hmem hexc hf⟩

/-- C6 witness: the theorem applied to bob over limit with a failing
disable action: the error is printed and the disable call happened once. -/
theorem C6_witness :
    Event.printErr "bob" ∈
      enforcement ⟨[], [], 3⟩ [("bob", [("1", 1), ("2", 1), ("3", 1), ("4", 1)])]
        (fun _ => true) ∧
    (enforcement ⟨[], [], 3⟩ [("bob", [("1", 1), ("2", 1), ("3", 1), ("4", 1)])]
        (fun _ => true)).count (Event.disable "bob") = 1 :=
  C6_error_atomicity.2 ⟨[], [], 3⟩
    [("bob", [("1", 1), ("2", 1), ("3", 1), ("4", 1)])] (fun _ => true) "bob"
    [("1", 1), ("2", 1), ("3", 1), ("4", 1)]
    (by decide) (by decide) (by decide) (by decide) rfl

/-- C1: starting from the empty streak table, an IP present in a user's
active set in each of cycles 1..k and absent in cycle k+1 has streak
exactly k after the streak update of cycle k and no entry after the streak
update of cycle k+1; a later reappearance starts a fresh streak at 1. -/
theorem C1_streak_semantics (snaps : List Snapshot) (k : Nat) (u ip : String)
    (hk : 1 ≤ k) (hlen : snaps.length = k + 1)
    (hnd : ∀ s ∈ snaps, (dictKeys s).Nodup)
    (hpres : ∀ s ∈ snaps.take k, ((dictGet s u).getD []).contains ip = true)
    (habs : ((dictGet (snaps.getD k []) u).getD []).contains ip = false) :
    streakOf (runStreaks [] (snaps.take k)) u ip = some k ∧
    streakOf (runStreaks [] snaps) u ip = none ∧
    (∀ (t : StreakTable) (s : Snapshot), (dictKeys s).Nodup →
      ((dictGet s u).getD []).contains ip = true → streakOf t u ip = none →
      streakOf (_update_ip_streaks t (check_ip_used s)) u ip = some 1) := by
  have htk : (snaps.take k).length = k := by
    rw [List.length_take]
    omega
  have hfirst : streakOf (runStreaks [] (snaps.take k)) u ip = some k := by
    rw [runStreaks_present (snaps.take k) u ip
      (fun s hs => ⟨hnd s (List.mem_of_mem_take hs), hpres s hs⟩) []
      (by intro hh; rw [hh] at htk; simp at htk; omega)]
    rw [htk]
    simp [streakOf, dictGet]
  refine ⟨hfirst, ?_, ?_⟩
  · have hdrop : snaps.drop k = [snaps.getD k []] := by
      rw [List.drop_eq_getElem_cons (by omega), List.drop_eq_nil_of_le (by omega),
        List.getD_eq_getElem snaps [] (by omega)]
    have hsplit : runStreaks [] snaps =
        _update_ip_streaks (runStreaks [] (snaps.take k))
          (check_ip_used (snaps.getD k [])) := by
      conv_lhs => rw [← List.take_append_drop k snaps]
      rw [runStreaks_append, hdrop]
      rfl
    have hmemk : snaps.getD k [] ∈ snaps := by
      rw [List.getD_eq_getElem snaps [] (by omega)]
      exact List.getElem_mem _
    rw [hsplit, streakOf_cycle _ _ u ip (hnd _ hmemk), habs]
    rfl
  · intro t s hs hc ht
    rw [streakOf_cycle t s u ip hs, hc]
    rw [ht]
    rfl

/-- C1 witness: the theorem applied to three concrete cycles: present in
cycles 1 and 2, absent in cycle 3 (streak 2, then gone). -/
theorem C1_witness :
    streakOf (runStreaks []
        (List.take 2 [[("u", ["ip1"])], [("u", ["ip1"])], [("u", [])]])) "u" "ip1" =
      some 2 ∧
    streakOf (runStreaks [] [[("u", ["ip1"])], [("u", ["ip1"])], [("u", [])]])
      "u" "ip1" = none := by
  have h := C1_streak_semantics [[("u", ["ip1"])], [("u", ["ip1"])], [("u", [])]]
    2 "u" "ip1" (by decide) (by decide) (by decide) (by decide) (by decide)
  exact ⟨h.1, h.2.1⟩

end LapaIpLimit
